import Mathlib

/-!
Verification development for the `github-me` statistics job
(`src/job/src/main.rs`, with `src/common/src/lib.rs` as the persistence sink).

The job enumerates repositories (dropping forks), clones and line-counts each
one, merges per-language counts into a shared global accumulator, collects a
per-repo report for eligible (public, non-excluded) repositories, then
post-processes: `combine_ts_tsx`, a fixed manual adjustment to the Rust and
TypeScript code counters of the global list, and descending sorts.

The embedding below translates the relevant parts of `run`,
`AddAssign for SimpleLanguage`, `combine_ts_tsx` and `total_code` into pure
Lean functions.  The parallel rayon fold is modelled as a sequential left fold
over the scheduled (size-sorted) repository list; the external line counter is
modelled as an oracle field `stats` on each repository descriptor.  The
`unwrap` panics in the manual-adjustment step are modelled with `Option`.
-/

namespace GithubMe

/-- Language identifiers from the fixed tokei allow-list configured in
`src/job/src/main.rs` lines 114-142. -/
inductive LanguageType where
  | Rust
  | C
  | Cpp
  | JavaScript
  | TypeScript
  | Css
  | Html
  | Python
  | Java
  | Sh
  | Tsx
  | Jsx
  | Toml
  | Markdown
  | Svelte
  | Vue
  | Sass
  | CMake
  | CppHeader
  | Zig
  | Go
  | Dockerfile
  | Yaml
  | Json
deriving DecidableEq

/-- Mirror of `struct SimpleLanguage` (main.rs lines 18-24): a language name
plus code, blanks and comments line counts. -/
structure SimpleLanguage where
  name : LanguageType
  code : Nat
  blanks : Nat
  comments : Nat
deriving DecidableEq

/-- Mirror of `impl AddAssign<&SimpleLanguage> for SimpleLanguage`
(main.rs lines 37-43): field-wise addition of the three counters, the
`name` of the left operand is kept. -/
def SimpleLanguage.add_assign (a b : SimpleLanguage) : SimpleLanguage :=
  { a with
    code := a.code + b.code
    comments := a.comments + b.comments
    blanks := a.blanks + b.blanks }

/-- Mirror of `struct PerRepo` (main.rs lines 45-51). -/
structure PerRepo where
  name : String
  href : String
  description : Option String
  languages : List SimpleLanguage
deriving DecidableEq

/-- Model of the repository descriptor delivered by the hosting API
(`octocrab::models::Repository`), restricted to the fields the job reads.
`priv` models the optional `private` flag, `fork` the optional fork flag and
`size` the optional declared size.  The external line-counting capability is
modelled by the oracle field `stats`: the `SimpleLanguage` entries that tokei
would report for this repository's working tree.  The source unwraps the
optional `html_url`; the model assumes it present. -/
structure Repo where
  name : String
  size : Option Nat
  fork : Option Bool
  priv : Option Bool
  description : Option String
  html_url : String
  stats : List SimpleLanguage
deriving DecidableEq

/-- Mirror of the accumulator step inside the merge loop (main.rs lines
210-217): find the first entry of the running total with the incoming entry's
name and field-wise add into it, otherwise push the incoming entry at the
end. -/
def addLang : List SimpleLanguage → SimpleLanguage → List SimpleLanguage
  | [], e => [e]
  | x :: xs, e =>
    if x.name = e.name then x.add_assign e :: xs else x :: addLang xs e

/-- Mirror of the whole merge loop `for (ty, lang) in &languages`
(main.rs lines 210-217): fold one repository's language list into the
accumulator, entry by entry. -/
def mergeInto (acc : List SimpleLanguage) (incoming : List SimpleLanguage) :
    List SimpleLanguage :=
  incoming.foldl addLang acc

/-- Repositories kept by the pagination loop (main.rs lines 98-109): an entry
is pushed unless `repo.fork.is_some_and(|f| f)` holds. -/
def keptRepos (repos : List Repo) : List Repo :=
  repos.filter (fun r => !(r.fork.getD false))

/-- Descending-size scheduling order (main.rs lines 148-154). -/
def sizeGe (a b : Repo) : Prop :=
  b.size.getD 0 ≤ a.size.getD 0

instance : DecidableRel sizeGe := fun _ _ => Nat.decLe _ _

instance : IsTotal Repo sizeGe :=
  ⟨fun a b => Nat.le_total (b.size.getD 0) (a.size.getD 0)⟩

instance : IsTrans Repo sizeGe :=
  ⟨fun _ _ _ h h' => Nat.le_trans h' h⟩

/-- Repository list as scheduled for processing: forks dropped by the
pagination loop, then sorted by descending declared size
(main.rs lines 98-109 and 148-154). -/
def scheduledRepos (repos : List Repo) : List Repo :=
  List.insertionSort sizeGe (keptRepos repos)

/-- Eligibility test guarding the per-repo push (main.rs line 219):
`!exclude_repos.contains(&repo.name) && !repo.private.is_some_and(|p| p)`. -/
def eligible (exclude : List String) (r : Repo) : Bool :=
  !(exclude.contains r.name) && !(r.priv.getD false)

/-- Per-repo report entry as constructed at main.rs lines 221-229: the
repository's own converted language list, name, href and description. -/
def mkPerRepo (r : Repo) : PerRepo :=
  { name := r.name
    href := r.html_url
    description := r.description
    languages := r.stats }

/-- Sequential model of the parallel fan-out phase (main.rs lines 157-241):
each repository's stats are merged into the global accumulator;
eligible repositories additionally push a `PerRepo` entry. -/
def processRepos (exclude : List String) (rs : List Repo) :
    List SimpleLanguage × List PerRepo :=
  rs.foldl
    (fun acc r =>
      (mergeInto acc.1 r.stats,
       if eligible exclude r then acc.2 ++ [mkPerRepo r] else acc.2))
    ([], [])

/-- Mirror of `langs.iter().enumerate().find(|(_, l)| l.name == Tsx)`
(main.rs lines 312-316), with the running index made explicit. -/
def findTsx : Nat → List SimpleLanguage → Option (Nat × SimpleLanguage)
  | _, [] => none
  | i, x :: xs =>
    if x.name = LanguageType.Tsx then some (i, x) else findTsx (i + 1) xs

/-- Mirror of `Vec::swap_remove` (main.rs line 331): the element at index `i`
is replaced by the last element, which is then popped. -/
def swapRemove {α : Type} (l : List α) (i : Nat) : List α :=
  match l.getLast? with
  | none => l
  | some last => (l.set i last).dropLast

/-- Mutation of the first element satisfying `p`, as done by
`iter_mut().find(..)` followed by an in-place update (main.rs lines 212-213,
322-329 and 259-269). -/
def updateFirst (l : List SimpleLanguage) (p : SimpleLanguage → Bool)
    (f : SimpleLanguage → SimpleLanguage) : List SimpleLanguage :=
  match l with
  | [] => []
  | x :: xs => if p x then f x :: xs else x :: updateFirst xs p f

/-- Mirror of `combine_ts_tsx` (main.rs lines 311-332).  If a `Tsx` entry
exists and a `TypeScript` entry also exists, the `Tsx` counts are added into
the first `TypeScript` entry and the `Tsx` entry is removed with
`swap_remove`; in all other cases (no `Tsx` entry, or no `TypeScript`
entry) the list is returned unchanged by the early `return`s. -/
def combine_ts_tsx (langs : List SimpleLanguage) : List SimpleLanguage :=
  match findTsx 0 langs with
  | none => langs
  | some (tsx_idx, tsx) =>
    if langs.any (fun l => l.name = LanguageType.TypeScript) then
      swapRemove
        (updateFirst langs (fun l => l.name = LanguageType.TypeScript)
          (fun ts => ts.add_assign tsx))
        tsx_idx
    else langs

/-- Manual adjustment for contract work (main.rs lines 258-269): add 15673 to
the code count of the first `Rust` entry and 4333 to the code count of the
first `TypeScript` entry.  Each `find(..).unwrap()` panics when the language
is absent; a panic is modelled as `none`. -/
def adjust (total : List SimpleLanguage) : Option (List SimpleLanguage) :=
  if total.any (fun l => l.name = LanguageType.Rust) then
    let t1 := updateFirst total (fun l => l.name = LanguageType.Rust)
      (fun l => { l with code := l.code + 15673 })
    if t1.any (fun l => l.name = LanguageType.TypeScript) then
      some (updateFirst t1 (fun l => l.name = LanguageType.TypeScript)
        (fun l => { l with code := l.code + 4333 }))
    else none
  else none

/-- Mirror of `total_code` (main.rs lines 301-309). -/
def total_code (languages : List SimpleLanguage) : Nat :=
  languages.foldl (fun t l => t + l.code) 0

/-- Descending order on code counts, used for the language-list sorts
(main.rs lines 277 and 280). -/
def codeGe (a b : SimpleLanguage) : Prop :=
  b.code ≤ a.code

instance : DecidableRel codeGe := fun _ _ => Nat.decLe _ _

instance : IsTotal SimpleLanguage codeGe :=
  ⟨fun a b => Nat.le_total b.code a.code⟩

instance : IsTrans SimpleLanguage codeGe :=
  ⟨fun _ _ _ h h' => Nat.le_trans h' h⟩

/-- Descending order on per-repo total code counts, used for the repo-list
sort (main.rs line 272). -/
def repoGe (a b : PerRepo) : Prop :=
  total_code b.languages ≤ total_code a.languages

instance : DecidableRel repoGe := fun _ _ => Nat.decLe _ _

instance : IsTotal PerRepo repoGe :=
  ⟨fun a b => Nat.le_total (total_code b.languages) (total_code a.languages)⟩

instance : IsTrans PerRepo repoGe :=
  ⟨fun _ _ _ h h' => Nat.le_trans h' h⟩

/-- Sort a language list in descending order of code count
(main.rs `sort_unstable_by(|a, b| b.code.cmp(&a.code))`). -/
def sortLangs (l : List SimpleLanguage) : List SimpleLanguage :=
  List.insertionSort codeGe l

/-- Post-processing phase (main.rs lines 256-280): `combine_ts_tsx` on the
global list, the manual adjustment (panics modelled as `none`), the repo-list
sort by descending total code, per-repo `combine_ts_tsx` plus language sort,
and the global language sort. -/
def postProcess (total : List SimpleLanguage) (per_repo_stats : List PerRepo) :
    Option (List SimpleLanguage × List PerRepo) :=
  match adjust (combine_ts_tsx total) with
  | none => none
  | some total2 =>
    let pr1 := List.insertionSort repoGe per_repo_stats
    let pr2 := pr1.map
      (fun r => { r with languages := sortLangs (combine_ts_tsx r.languages) })
    some (sortLangs total2, pr2)

/-- Whole-run model (`run`, main.rs lines 80-299): schedule the non-fork
repositories, process them, then post-process.  `none` models a panic in the
manual-adjustment step. -/
def run (exclude : List String) (repos : List Repo) :
    Option (List SimpleLanguage × List PerRepo) :=
  let processed := processRepos exclude (scheduledRepos repos)
  postProcess processed.1 processed.2

/-! Observation layer: the first entry of a language list with a given name,
and field-wise count sums.  These are the extensional reading of a
`LanguageStatSet` as "a collection keyed by language identifier". -/

/-- Triple of (code, blanks, comments) counts carried by one entry. -/
def countsOf (e : SimpleLanguage) : Nat × Nat × Nat :=
  (e.code, e.blanks, e.comments)

/-- Field-wise addition of count triples. -/
def addC (a b : Nat × Nat × Nat) : Nat × Nat × Nat :=
  (a.1 + b.1, a.2.1 + b.2.1, a.2.2 + b.2.2)

/-- First entry of a language list carrying the given language name,
matching the `iter().find(|l| l.name == ty)` idiom of the source. -/
def entry? (l : List SimpleLanguage) (ty : LanguageType) :
    Option SimpleLanguage :=
  l.find? (fun e => e.name = ty)

/-- Counts of the first entry with the given name, if any. -/
def counts? (l : List SimpleLanguage) (ty : LanguageType) :
    Option (Nat × Nat × Nat) :=
  (entry? l ty).map countsOf

/-- Contribution of a single entry to the counts of language `ty`. -/
def single (e : SimpleLanguage) (ty : LanguageType) :
    Option (Nat × Nat × Nat) :=
  if e.name = ty then some (countsOf e) else none

/-- Combination of optional count triples: both absent stays absent,
otherwise field-wise addition of whatever is present. -/
def optCombine :
    Option (Nat × Nat × Nat) → Option (Nat × Nat × Nat) →
      Option (Nat × Nat × Nat)
  | none, b => b
  | some a, none => some a
  | some a, some b => some (addC a b)

/-- Total contribution of a language list to language `ty`: the field-wise
sum over all entries named `ty`, `none` if there is no such entry. -/
def sumStats : List SimpleLanguage → LanguageType → Option (Nat × Nat × Nat)
  | [], _ => none
  | e :: l, ty => optCombine (single e ty) (sumStats l ty)

theorem addC_comm (a b : Nat × Nat × Nat) : addC a b = addC b a := by
  simp [addC, Nat.add_comm]

theorem optCombine_none_left (b : Option (Nat × Nat × Nat)) :
    optCombine none b = b := rfl

theorem optCombine_none_right (a : Option (Nat × Nat × Nat)) :
    optCombine a none = a := by
  cases a <;> rfl

theorem optCombine_comm (a b : Option (Nat × Nat × Nat)) :
    optCombine a b = optCombine b a := by
  cases a <;> cases b <;> simp [optCombine, addC_comm]

theorem optCombine_assoc (a b c : Option (Nat × Nat × Nat)) :
    optCombine (optCombine a b) c = optCombine a (optCombine b c) := by
  cases a <;> cases b <;> cases c <;> simp [optCombine, addC, Nat.add_assoc]

theorem countsOf_add_assign (a b : SimpleLanguage) :
    countsOf (a.add_assign b) = addC (countsOf a) (countsOf b) := rfl

theorem entry?_nil (ty : LanguageType) : entry? [] ty = none := rfl

theorem entry?_cons (x : SimpleLanguage) (xs : List SimpleLanguage)
    (ty : LanguageType) :
    entry? (x :: xs) ty = if x.name = ty then some x else entry? xs ty := by
  by_cases h : x.name = ty
  · simp [entry?, List.find?_cons_of_pos, h]
  · simp [entry?, List.find?_cons_of_neg, h]

/-- Entry found when a helper pushes `e` into an accumulator: the existing
entry with `e`'s name field-wise increased, or `e` itself when absent. -/
def pushInto (oe : Option SimpleLanguage) (e : SimpleLanguage) :
    SimpleLanguage :=
  match oe with
  | some x => x.add_assign e
  | none => e

theorem entry?_addLang (l : List SimpleLanguage) (e : SimpleLanguage)
    (ty : LanguageType) :
    entry? (addLang l e) ty =
      if ty = e.name then some (pushInto (entry? l ty) e)
      else entry? l ty := by
  induction l with
  | nil =>
    by_cases h : ty = e.name <;>
      simp [addLang, entry?_cons, entry?_nil, pushInto, h, Eq.comm]
  | cons x xs ih =>
    by_cases hx : x.name = e.name
    · by_cases hty : ty = e.name
      · have hxty : x.name = ty := by rw [hx, hty]
        simp [addLang, hx, entry?_cons, SimpleLanguage.add_assign, hxty,
          pushInto, hty]
      · have hxty : ¬x.name = ty := fun hc => hty (hc ▸ hx.symm ▸ rfl)
        have hxty' : ¬(x.add_assign e).name = ty := hxty
        simp [addLang, hx, entry?_cons, SimpleLanguage.add_assign, hty] at *
        simp [hxty]
    · by_cases hxty : x.name = ty
      · have hty : ¬ty = e.name := fun hc => hx (hxty.trans hc)
        simp [addLang, hx, entry?_cons, hxty, hty]
      · simp [addLang, hx, entry?_cons, hxty, ih]

theorem counts?_addLang (l : List SimpleLanguage) (e : SimpleLanguage)
    (ty : LanguageType) :
    counts? (addLang l e) ty = optCombine (counts? l ty) (single e ty) := by
  by_cases hty : ty = e.name
  · have hsingle : single e ty = some (countsOf e) := by
      simp [single, hty]
    rw [counts?, entry?_addLang, if_pos hty, hsingle]
    cases h : entry? l ty with
    | none => simp [counts?, h, pushInto, optCombine]
    | some x => simp [counts?, h, pushInto, optCombine, countsOf_add_assign]
  · have hsingle : single e ty = none := by
      simp [single]
      exact fun hc => absurd hc.symm hty
    rw [counts?, entry?_addLang, if_neg hty, hsingle, optCombine_none_right]
    rfl

theorem counts?_mergeInto (X : List SimpleLanguage) :
    ∀ (acc : List SimpleLanguage) (ty : LanguageType),
      counts? (mergeInto acc X) ty =
        optCombine (counts? acc ty) (sumStats X ty) := by
  induction X with
  | nil =>
    intro acc ty
    simp [mergeInto, sumStats, optCombine_none_right]
  | cons e X ih =>
    intro acc ty
    have hstep : mergeInto acc (e :: X) = mergeInto (addLang acc e) X := rfl
    rw [hstep, ih, counts?_addLang, sumStats, optCombine_assoc]

theorem counts?_nil (ty : LanguageType) : counts? [] ty = none := rfl

/-- Uniqueness of language keys in a stat set: the list of names has no
duplicates (invariant (a) of the data model). -/
def nodupKeys (l : List SimpleLanguage) : Prop :=
  (l.map (fun e => e.name)).Nodup

theorem map_name_addLang (l : List SimpleLanguage) (e : SimpleLanguage) :
    (addLang l e).map (fun x => x.name) =
      if l.any (fun x => x.name = e.name) then l.map (fun x => x.name)
      else l.map (fun x => x.name) ++ [e.name] := by
  induction l with
  | nil => simp [addLang]
  | cons x xs ih =>
    by_cases hx : x.name = e.name
    · simp [addLang, hx, SimpleLanguage.add_assign]
    · by_cases hany : xs.any (fun y => y.name = e.name)
      · simp [addLang, hx, ih, hany, List.any_cons]
      · simp [addLang, hx, ih, hany, List.any_cons]

theorem nodupKeys_addLang (l : List SimpleLanguage) (e : SimpleLanguage)
    (h : nodupKeys l) : nodupKeys (addLang l e) := by
  unfold nodupKeys
  rw [map_name_addLang]
  by_cases hany : l.any (fun x => x.name = e.name)
  · simpa [hany] using h
  · rw [if_neg hany]
    have hmem : e.name ∉ l.map (fun x => x.name) := by
      simp only [List.any_eq_true, decide_eq_true_eq] at hany
      simp only [List.mem_map]
      rintro ⟨x, hx, hxe⟩
      exact hany ⟨x, hx, hxe⟩
    have hperm := List.perm_append_singleton e.name
      (l.map (fun x => x.name))
    rw [hperm.nodup_iff]
    exact List.Nodup.cons hmem h

theorem nodupKeys_mergeInto (X : List SimpleLanguage) :
    ∀ acc : List SimpleLanguage, nodupKeys acc →
      nodupKeys (mergeInto acc X) := by
  induction X with
  | nil => intro acc h; exact h
  | cons e X ih =>
    intro acc h
    exact ih (addLang acc e) (nodupKeys_addLang acc e h)

theorem nodupKeys_nil : nodupKeys [] := List.nodup_nil

/-- Fold of a whole run's worth of per-repository stat sets into an empty
global accumulator. -/
def mergeAll (sets : List (List SimpleLanguage)) : List SimpleLanguage :=
  sets.foldl mergeInto []

theorem nodupKeys_mergeAll (sets : List (List SimpleLanguage)) :
    nodupKeys (mergeAll sets) := by
  have haux : ∀ (L : List (List SimpleLanguage)) (acc : List SimpleLanguage),
      nodupKeys acc → nodupKeys (L.foldl mergeInto acc) := by
    intro L
    induction L with
    | nil => intro acc h; exact h
    | cons X L ih =>
      intro acc h
      exact ih (mergeInto acc X) (nodupKeys_mergeInto X acc h)
  exact haux sets [] nodupKeys_nil

theorem mem_of_entry?_eq_some {l : List SimpleLanguage}
    {e : SimpleLanguage} {ty : LanguageType} (h : entry? l ty = some e) :
    e ∈ l ∧ e.name = ty := by
  refine ⟨List.mem_of_find?_eq_some h, ?_⟩
  have hp := List.find?_some h
  simpa using hp

theorem entry?_eq_some_of_mem {l : List SimpleLanguage} {e : SimpleLanguage}
    (h : nodupKeys l) (hmem : e ∈ l) : entry? l e.name = some e := by
  induction l with
  | nil => cases hmem
  | cons x xs ih =>
    have hnd := List.nodup_cons.mp h
    rcases List.mem_cons.mp hmem with rfl | hmem'
    · simp [entry?_cons]
    · have hx : ¬x.name = e.name := by
        intro hc
        have hmm : x.name ∈ xs.map (fun y => y.name) := by
          rw [hc]
          exact List.mem_map.mpr ⟨e, hmem', rfl⟩
        exact hnd.1 hmm
      rw [entry?_cons, if_neg hx]
      exact ih hnd.2 hmem'

theorem eq_of_name_eq_of_countsOf_eq {e e' : SimpleLanguage}
    (hn : e.name = e'.name) (hc : countsOf e = countsOf e') : e = e' := by
  cases e
  cases e'
  simp only [countsOf, Prod.mk.injEq] at hn hc
  simp only [SimpleLanguage.mk.injEq]
  exact ⟨hn, hc.1, hc.2.1, hc.2.2⟩

theorem entry?_eq_of_counts?_eq {l₁ l₂ : List SimpleLanguage}
    (h : ∀ ty, counts? l₁ ty = counts? l₂ ty) :
    ∀ ty, entry? l₁ ty = entry? l₂ ty := by
  intro ty
  have hc := h ty
  cases h₁ : entry? l₁ ty with
  | none =>
    rw [counts?, counts?, h₁] at hc
    cases h₂ : entry? l₂ ty with
    | none => rfl
    | some e => rw [h₂] at hc; cases hc
  | some e =>
    rw [counts?, counts?, h₁] at hc
    cases h₂ : entry? l₂ ty with
    | none => rw [h₂] at hc; cases hc
    | some e' =>
      rw [h₂] at hc
      have hcc : countsOf e = countsOf e' := by
        simpa using hc
      have hn : e.name = e'.name := by
        rw [(mem_of_entry?_eq_some h₁).2, (mem_of_entry?_eq_some h₂).2]
      rw [eq_of_name_eq_of_countsOf_eq hn hcc]

theorem perm_of_nodupKeys_of_counts?_eq {l₁ l₂ : List SimpleLanguage}
    (h₁ : nodupKeys l₁) (h₂ : nodupKeys l₂)
    (h : ∀ ty, counts? l₁ ty = counts? l₂ ty) : l₁.Perm l₂ := by
  have hent := entry?_eq_of_counts?_eq h
  have hn₁ : l₁.Nodup := List.Nodup.of_map _ h₁
  have hn₂ : l₂.Nodup := List.Nodup.of_map _ h₂
  rw [List.perm_ext_iff_of_nodup hn₁ hn₂]
  intro e
  constructor
  · intro hm
    have he := entry?_eq_some_of_mem h₁ hm
    rw [hent e.name] at he
    exact (mem_of_entry?_eq_some he).1
  · intro hm
    have he := entry?_eq_some_of_mem h₂ hm
    rw [← hent e.name] at he
    exact (mem_of_entry?_eq_some he).1

theorem processRepos_aux (exclude : List String) :
    ∀ (rs : List Repo) (t : List SimpleLanguage) (p : List PerRepo),
      rs.foldl
        (fun acc r =>
          (mergeInto acc.1 r.stats,
           if eligible exclude r then acc.2 ++ [mkPerRepo r] else acc.2))
        (t, p) =
      ((rs.map (fun r => r.stats)).foldl mergeInto t,
       p ++ (rs.filter (fun r => eligible exclude r)).map mkPerRepo) := by
  intro rs
  induction rs with
  | nil => intro t p; simp
  | cons r rs ih =>
    intro t p
    by_cases he : eligible exclude r
    · simp [List.foldl_cons, he, ih, List.filter_cons]
    · simp [List.foldl_cons, he, ih, List.filter_cons]

/-- Decomposition of the fan-out phase: the global accumulator is the fold of
all processed stat sets into an empty list, the per-repo list is the image of
the eligible repositories in processing order. -/
theorem processRepos_eq (exclude : List String) (rs : List Repo) :
    processRepos exclude rs =
      (mergeAll (rs.map (fun r => r.stats)),
       (rs.filter (fun r => eligible exclude r)).map mkPerRepo) := by
  unfold processRepos mergeAll
  rw [processRepos_aux]
  simp

/-- C3: merging stat set `A` and then `B` into an empty accumulator yields
the same result as merging `B` and then `A`: the two accumulators agree on
the counts of every language identifier (the final global totals are
independent of completion order) and, as keyed collections with unique keys,
they are permutations of each other.  The accumulator is a vector of
entries, so the physical element order may differ between the two sides;
"same result" is read extensionally, as the data model defines a
`LanguageStatSet` keyed by language identifier. -/
theorem C3_merge_commutative (A B : List SimpleLanguage) :
    (∀ ty, counts? (mergeInto (mergeInto [] A) B) ty
        = counts? (mergeInto (mergeInto [] B) A) ty) ∧
    (mergeInto (mergeInto [] A) B).Perm (mergeInto (mergeInto [] B) A) := by
  have hty : ∀ ty, counts? (mergeInto (mergeInto [] A) B) ty
      = counts? (mergeInto (mergeInto [] B) A) ty := by
    intro ty
    rw [counts?_mergeInto, counts?_mergeInto, counts?_mergeInto,
      counts?_mergeInto, counts?_nil, optCombine_none_left,
      optCombine_none_left]
    exact optCombine_comm _ _
  refine ⟨hty, perm_of_nodupKeys_of_counts?_eq ?_ ?_ hty⟩
  · exact nodupKeys_mergeInto B _ (nodupKeys_mergeInto A [] nodupKeys_nil)
  · exact nodupKeys_mergeInto A _ (nodupKeys_mergeInto B [] nodupKeys_nil)

/-- C4: after any sequence of per-repository merges into the (initially
empty) global accumulator, the resulting stat set has at most one entry per
language identifier: an incoming count for a language already present is
field-wise added into the existing entry by `addLang`, never pushed as a
duplicate.  Stated both for an arbitrary sequence of merged stat sets and
for the global accumulator produced by the fan-out phase itself. -/
theorem C4_global_keys_unique :
    (∀ sets : List (List SimpleLanguage), nodupKeys (mergeAll sets)) ∧
    (∀ (exclude : List String) (rs : List Repo),
      nodupKeys (processRepos exclude rs).1) := by
  refine ⟨nodupKeys_mergeAll, ?_⟩
  intro exclude rs
  rw [processRepos_eq]
  exact nodupKeys_mergeAll _

theorem swapRemove_eq_of_getLast? {α : Type} (l : List α) (i : Nat)
    (last : α) (h : l.getLast? = some last) :
    swapRemove l i = (l.set i last).dropLast := by
  unfold swapRemove
  rw [h]

theorem swapRemove_cons_succ {α : Type} (x y : α) (ys : List α) (j : Nat) :
    swapRemove (x :: y :: ys) (j + 1) = x :: swapRemove (y :: ys) j := by
  obtain ⟨last, hlast⟩ : ∃ a, (y :: ys).getLast? = some a :=
    ⟨_, List.getLast?_eq_getLast (y :: ys) (by simp)⟩
  rw [swapRemove_eq_of_getLast? (x :: y :: ys) (j + 1) last
    (by rw [List.getLast?_cons_cons, hlast]),
    swapRemove_eq_of_getLast? (y :: ys) j last hlast, List.set_cons_succ]
  obtain ⟨z, zs, hzs⟩ : ∃ z zs, (y :: ys).set j last = z :: zs := by
    cases j with
    | zero => exact ⟨last, ys, by simp⟩
    | succ k => exact ⟨y, ys.set k last, by simp⟩
  rw [hzs, List.dropLast_cons₂]

theorem swapRemove_perm {α : Type} :
    ∀ (l : List α) (i : Nat), i < l.length →
      (swapRemove l i).Perm (l.eraseIdx i) := by
  intro l
  induction l with
  | nil => intro i h; simp at h
  | cons x xs ih =>
    intro i h
    cases xs with
    | nil =>
      have hi : i = 0 := by
        simp at h
        omega
      subst hi
      simp [swapRemove]
    | cons y ys =>
      cases i with
      | zero =>
        obtain ⟨last, hlast⟩ : ∃ a, (y :: ys).getLast? = some a :=
          ⟨_, List.getLast?_eq_getLast (y :: ys) (by simp)⟩
        rw [swapRemove_eq_of_getLast? (x :: y :: ys) 0 last
          (by rw [List.getLast?_cons_cons, hlast]),
          List.set_cons_zero, List.dropLast_cons₂, List.eraseIdx_cons_zero]
        have hdl : (y :: ys).dropLast ++ [last] = y :: ys :=
          List.dropLast_append_getLast? last (by simp [hlast])
        have hperm := (List.perm_append_singleton last (y :: ys).dropLast).symm
        rw [hdl] at hperm
        exact hperm
      | succ j =>
        rw [swapRemove_cons_succ, List.eraseIdx_cons_succ]
        have hj : j < (y :: ys).length := by
          simp at h ⊢
          omega
        exact (ih j hj).cons x

theorem perm_cons_eraseIdx {α : Type} :
    ∀ (l : List α) (i : Nat) (e : α), l[i]? = some e →
      l.Perm (e :: l.eraseIdx i) := by
  intro l
  induction l with
  | nil => intro i e h; simp at h
  | cons x xs ih =>
    intro i e h
    cases i with
    | zero =>
      rw [List.getElem?_cons_zero, Option.some.injEq] at h
      subst h
      rw [List.eraseIdx_cons_zero]
    | succ j =>
      rw [List.getElem?_cons_succ] at h
      rw [List.eraseIdx_cons_succ]
      exact ((ih j e h).cons x).trans (List.Perm.swap _ _ _)

theorem total_code_cons (x : SimpleLanguage) (t : List SimpleLanguage) :
    total_code (x :: t) = x.code + total_code t := by
  have haux : ∀ (l : List SimpleLanguage) (n : Nat),
      l.foldl (fun t e => t + e.code) n = n + total_code l := by
    intro l
    induction l with
    | nil => intro n; simp [total_code]
    | cons e l ih =>
      intro n
      show l.foldl _ (n + e.code) = n + total_code (e :: l)
      rw [ih (n + e.code)]
      show n + e.code + total_code l = n + (e :: l).foldl _ 0
      rw [List.foldl_cons]
      show n + e.code + total_code l = n + l.foldl _ (0 + e.code)
      rw [ih (0 + e.code), Nat.zero_add, Nat.add_assoc]
  show (x :: t).foldl _ 0 = x.code + total_code t
  rw [List.foldl_cons, haux t (0 + x.code), Nat.zero_add]

theorem total_code_eq_sum (l : List SimpleLanguage) :
    total_code l = (l.map (fun e => e.code)).sum := by
  induction l with
  | nil => rfl
  | cons x t ih => rw [total_code_cons, List.map_cons, List.sum_cons, ih]

theorem total_code_perm {l l' : List SimpleLanguage} (h : l.Perm l') :
    total_code l = total_code l' := by
  rw [total_code_eq_sum, total_code_eq_sum]
  exact (h.map _).sum_eq

theorem total_code_eraseIdx (l : List SimpleLanguage) (i : Nat)
    (e : SimpleLanguage) (h : l[i]? = some e) :
    total_code l = e.code + total_code (l.eraseIdx i) := by
  rw [total_code_perm (perm_cons_eraseIdx l i e h), total_code_cons]

theorem length_updateFirst (l : List SimpleLanguage)
    (p : SimpleLanguage → Bool) (f : SimpleLanguage → SimpleLanguage) :
    (updateFirst l p f).length = l.length := by
  induction l with
  | nil => rfl
  | cons x xs ih =>
    by_cases hx : p x <;> simp [updateFirst, hx, ih]

theorem getElem?_updateFirst_of_not (p : SimpleLanguage → Bool)
    (f : SimpleLanguage → SimpleLanguage) :
    ∀ (l : List SimpleLanguage) (i : Nat) (e : SimpleLanguage),
      l[i]? = some e → p e = false → (updateFirst l p f)[i]? = some e := by
  intro l
  induction l with
  | nil => intro i e h _; simp at h
  | cons x xs ih =>
    intro i e h hp
    cases i with
    | zero =>
      rw [List.getElem?_cons_zero, Option.some.injEq] at h
      subst h
      have hx : ¬p x = true := by simp [hp]
      simp [updateFirst, hx]
    | succ j =>
      rw [List.getElem?_cons_succ] at h
      by_cases hx : p x
      · simp only [updateFirst, hx, if_true, List.getElem?_cons_succ]
        exact h
      · simp only [updateFirst, hx, if_false, Bool.false_eq_true,
          not_false_iff, List.getElem?_cons_succ]
        exact ih j e h hp

theorem map_name_updateFirst (l : List SimpleLanguage)
    (p : SimpleLanguage → Bool) (f : SimpleLanguage → SimpleLanguage)
    (hf : ∀ e, (f e).name = e.name) :
    (updateFirst l p f).map (fun e => e.name) =
      l.map (fun e => e.name) := by
  induction l with
  | nil => rfl
  | cons x xs ih =>
    by_cases hx : p x <;> simp [updateFirst, hx, ih, hf]

theorem total_code_updateFirst (l : List SimpleLanguage)
    (p : SimpleLanguage → Bool) (f : SimpleLanguage → SimpleLanguage)
    (k : Nat) (hf : ∀ e, (f e).code = e.code + k)
    (hany : l.any p = true) :
    total_code (updateFirst l p f) = total_code l + k := by
  induction l with
  | nil => simp at hany
  | cons x xs ih =>
    by_cases hx : p x
    · simp only [updateFirst, hx, if_pos]
      rw [total_code_cons, total_code_cons, hf x, Nat.add_assoc,
        Nat.add_comm k (total_code xs), ← Nat.add_assoc]
    · have hx' : p x = false := by
        simpa using hx
      have hany' : xs.any p = true := by
        rw [List.any_cons, hx', Bool.false_or] at hany
        exact hany
      simp only [updateFirst, hx, if_false, Bool.false_eq_true,
        not_false_iff]
      rw [total_code_cons, total_code_cons, ih hany', Nat.add_assoc]

theorem findTsx_some :
    ∀ (l : List SimpleLanguage) (i j : Nat) (x : SimpleLanguage),
      findTsx i l = some (j, x) →
        i ≤ j ∧ l[j - i]? = some x ∧ x.name = LanguageType.Tsx := by
  intro l
  induction l with
  | nil => intro i j x h; simp [findTsx] at h
  | cons y ys ih =>
    intro i j x h
    by_cases hy : y.name = LanguageType.Tsx
    · rw [findTsx, if_pos hy, Option.some.injEq, Prod.mk.injEq] at h
      obtain ⟨rfl, rfl⟩ := h
      refine ⟨Nat.le_refl i, ?_, hy⟩
      rw [Nat.sub_self, List.getElem?_cons_zero]
    · rw [findTsx, if_neg hy] at h
      obtain ⟨hle, hget, hname⟩ := ih (i + 1) j x h
      refine ⟨by omega, ?_, hname⟩
      have hji : j - i = (j - (i + 1)) + 1 := by omega
      rw [hji, List.getElem?_cons_succ]
      exact hget

theorem combine_ts_tsx_of_none (l : List SimpleLanguage)
    (h : findTsx 0 l = none) : combine_ts_tsx l = l := by
  unfold combine_ts_tsx
  rw [h]

theorem combine_ts_tsx_of_pos (l : List SimpleLanguage) (i : Nat)
    (tsx : SimpleLanguage) (hf : findTsx 0 l = some (i, tsx))
    (hts : l.any (fun e => e.name = LanguageType.TypeScript) = true) :
    combine_ts_tsx l =
      swapRemove
        (updateFirst l (fun e => e.name = LanguageType.TypeScript)
          (fun ts => ts.add_assign tsx)) i := by
  unfold combine_ts_tsx
  rw [hf]
  exact if_pos hts

theorem combine_ts_tsx_of_neg (l : List SimpleLanguage) (i : Nat)
    (tsx : SimpleLanguage) (hf : findTsx 0 l = some (i, tsx))
    (hts : ¬l.any (fun e => e.name = LanguageType.TypeScript) = true) :
    combine_ts_tsx l = l := by
  unfold combine_ts_tsx
  rw [hf]
  exact if_neg hts

theorem mem_updateFirst_of_not {l : List SimpleLanguage}
    {p : SimpleLanguage → Bool} {f : SimpleLanguage → SimpleLanguage}
    {e : SimpleLanguage} (hmem : e ∈ l) (hp : p e = false) :
    e ∈ updateFirst l p f := by
  induction l with
  | nil => cases hmem
  | cons x xs ih =>
    rcases List.mem_cons.mp hmem with rfl | hmem'
    · have hx : ¬p e = true := by simp [hp]
      simp [updateFirst, hx]
    · by_cases hx : p x
      · simp only [updateFirst, hx, if_true]
        exact List.mem_cons_of_mem _ hmem'
      · simp only [updateFirst, hx, if_false, Bool.false_eq_true,
          not_false_iff]
        exact List.mem_cons_of_mem _ (ih hmem')

theorem entry?_updateFirst (ty₀ : LanguageType)
    (f : SimpleLanguage → SimpleLanguage) (hf : ∀ e, (f e).name = e.name) :
    ∀ (l : List SimpleLanguage) (ty : LanguageType),
      entry? (updateFirst l (fun e => e.name = ty₀) f) ty =
        if ty = ty₀ then (entry? l ty).map f else entry? l ty := by
  intro l
  induction l with
  | nil =>
    intro ty
    by_cases h : ty = ty₀ <;> simp [updateFirst, entry?_nil, h]
  | cons x xs ih =>
    intro ty
    by_cases hx : x.name = ty₀
    · have hcond : (fun e => decide (e.name = ty₀)) x = true := by
        simp [hx]
      simp only [updateFirst, hcond, if_true]
      by_cases hty : ty = ty₀
      · have hfx : (f x).name = ty := by rw [hf, hx, hty]
        have hxty : x.name = ty := by rw [hx, hty]
        rw [entry?_cons, if_pos hfx, if_pos hty, entry?_cons, if_pos hxty]
        rfl
      · have hxty : ¬x.name = ty := by
          rw [hx]
          exact fun hc => hty hc.symm
        rw [entry?_cons, if_neg (by rw [hf]; exact hxty), if_neg hty,
          entry?_cons, if_neg hxty]
    · have hcond : ¬(fun e => decide (e.name = ty₀)) x = true := by
        simp [hx]
      simp only [updateFirst, hcond, if_false, Bool.false_eq_true,
        not_false_iff]
      by_cases hxty : x.name = ty
      · have hty : ¬ty = ty₀ := fun hc => hx (hxty.trans hc)
        rw [entry?_cons, if_pos hxty, if_neg hty, entry?_cons, if_pos hxty]
      · rw [entry?_cons, if_neg hxty, ih ty, entry?_cons, if_neg hxty]

theorem nodupKeys_perm {l l' : List SimpleLanguage} (hp : l.Perm l')
    (h : nodupKeys l) : nodupKeys l' := by
  unfold nodupKeys at h ⊢
  exact ((hp.map (fun e => e.name)).nodup_iff).mp h

theorem counts?_eq_of_perm {l l' : List SimpleLanguage}
    (hnd : nodupKeys l) (hp : l.Perm l') :
    ∀ ty, counts? l ty = counts? l' ty := by
  have hnd' : nodupKeys l' := nodupKeys_perm hp hnd
  intro ty
  cases h₁ : entry? l ty with
  | none =>
    have hall := List.find?_eq_none.mp h₁
    have h₂ : entry? l' ty = none :=
      List.find?_eq_none.mpr (fun x hx => hall x (hp.mem_iff.mpr hx))
    rw [counts?, counts?, h₁, h₂]
  | some e =>
    obtain ⟨hmem, hname⟩ := mem_of_entry?_eq_some h₁
    have h₂ : entry? l' e.name = some e :=
      entry?_eq_some_of_mem hnd' (hp.mem_iff.mp hmem)
    rw [hname] at h₂
    rw [counts?, counts?, h₁, h₂]

theorem nodupKeys_eraseIdx {l : List SimpleLanguage} (i : Nat)
    (h : nodupKeys l) : nodupKeys (l.eraseIdx i) :=
  List.Nodup.sublist ((List.eraseIdx_sublist l i).map (fun e => e.name)) h

theorem nodupKeys_combine_ts_tsx (l : List SimpleLanguage)
    (h : nodupKeys l) : nodupKeys (combine_ts_tsx l) := by
  cases hf : findTsx 0 l with
  | none => rw [combine_ts_tsx_of_none l hf]; exact h
  | some p =>
    obtain ⟨i, tsx⟩ := p
    by_cases hts : l.any (fun e => e.name = LanguageType.TypeScript) = true
    · rw [combine_ts_tsx_of_pos l i tsx hf hts]
      obtain ⟨-, hget, hname⟩ := findTsx_some l 0 i tsx hf
      rw [Nat.sub_zero] at hget
      have hui : (updateFirst l (fun e => e.name = LanguageType.TypeScript)
          (fun ts => ts.add_assign tsx))[i]? = some tsx :=
        getElem?_updateFirst_of_not _ _ l i tsx hget
          (by simp [hname])
      have hilen :
          i < (updateFirst l (fun e => e.name = LanguageType.TypeScript)
            (fun ts => ts.add_assign tsx)).length :=
        (List.getElem?_eq_some_iff.mp hui).1
      have hndu : nodupKeys (updateFirst l
          (fun e => e.name = LanguageType.TypeScript)
          (fun ts => ts.add_assign tsx)) := by
        unfold nodupKeys
        rw [map_name_updateFirst l _ (fun ts => ts.add_assign tsx)
          (fun e => rfl)]
        exact h
      exact nodupKeys_perm (swapRemove_perm _ i hilen).symm
        (nodupKeys_eraseIdx i hndu)
    · rw [combine_ts_tsx_of_neg l i tsx hf hts]; exact h

theorem name_mem_of_mem_combine_ts_tsx {l : List SimpleLanguage}
    {y : SimpleLanguage} (hy : y ∈ combine_ts_tsx l) :
    y.name ∈ l.map (fun e => e.name) := by
  cases hf : findTsx 0 l with
  | none =>
    rw [combine_ts_tsx_of_none l hf] at hy
    exact List.mem_map.mpr ⟨y, hy, rfl⟩
  | some p =>
    obtain ⟨i, tsx⟩ := p
    by_cases hts : l.any (fun e => e.name = LanguageType.TypeScript) = true
    · rw [combine_ts_tsx_of_pos l i tsx hf hts] at hy
      obtain ⟨-, hget, hname⟩ := findTsx_some l 0 i tsx hf
      rw [Nat.sub_zero] at hget
      have hui : (updateFirst l (fun e => e.name = LanguageType.TypeScript)
          (fun ts => ts.add_assign tsx))[i]? = some tsx :=
        getElem?_updateFirst_of_not _ _ l i tsx hget (by simp [hname])
      have hilen :
          i < (updateFirst l (fun e => e.name = LanguageType.TypeScript)
            (fun ts => ts.add_assign tsx)).length :=
        (List.getElem?_eq_some_iff.mp hui).1
      have hyu : y ∈ updateFirst l
          (fun e => e.name = LanguageType.TypeScript)
          (fun ts => ts.add_assign tsx) :=
        (List.eraseIdx_sublist _ i).subset
          (((swapRemove_perm _ i hilen).mem_iff).mp hy)
      have hnames : y.name ∈ (updateFirst l
          (fun e => e.name = LanguageType.TypeScript)
          (fun ts => ts.add_assign tsx)).map (fun e => e.name) :=
        List.mem_map.mpr ⟨y, hyu, rfl⟩
      rw [map_name_updateFirst l _ (fun ts => ts.add_assign tsx)
        (fun e => rfl)] at hnames
      exact hnames
    · rw [combine_ts_tsx_of_neg l i tsx hf hts] at hy
      exact List.mem_map.mpr ⟨y, hy, rfl⟩

theorem total_code_combine_ts_tsx (l : List SimpleLanguage) :
    total_code (combine_ts_tsx l) = total_code l := by
  cases hf : findTsx 0 l with
  | none => rw [combine_ts_tsx_of_none l hf]
  | some p =>
    obtain ⟨i, tsx⟩ := p
    by_cases hts : l.any (fun e => e.name = LanguageType.TypeScript) = true
    · rw [combine_ts_tsx_of_pos l i tsx hf hts]
      obtain ⟨-, hget, hname⟩ := findTsx_some l 0 i tsx hf
      rw [Nat.sub_zero] at hget
      have hui : (updateFirst l (fun e => e.name = LanguageType.TypeScript)
          (fun ts => ts.add_assign tsx))[i]? = some tsx :=
        getElem?_updateFirst_of_not _ _ l i tsx hget (by simp [hname])
      have hilen :
          i < (updateFirst l (fun e => e.name = LanguageType.TypeScript)
            (fun ts => ts.add_assign tsx)).length :=
        (List.getElem?_eq_some_iff.mp hui).1
      rw [total_code_perm (swapRemove_perm _ i hilen)]
      have hupd : total_code (updateFirst l
          (fun e => e.name = LanguageType.TypeScript)
          (fun ts => ts.add_assign tsx)) = total_code l + tsx.code :=
        total_code_updateFirst l _ _ tsx.code (fun e => rfl) hts
      have herase := total_code_eraseIdx
        (updateFirst l (fun e => e.name = LanguageType.TypeScript)
          (fun ts => ts.add_assign tsx)) i tsx hui
      omega
    · rw [combine_ts_tsx_of_neg l i tsx hf hts]

theorem counts?_eq_none_iff (l : List SimpleLanguage) (ty : LanguageType) :
    counts? l ty = none ↔ ∀ e ∈ l, ¬e.name = ty := by
  rw [counts?, Option.map_eq_none', entry?, List.find?_eq_none]
  simp

theorem counts?_combine_ts_tsx_none (l : List SimpleLanguage)
    (ty : LanguageType) (h : counts? l ty = none) :
    counts? (combine_ts_tsx l) ty = none := by
  rw [counts?_eq_none_iff] at h ⊢
  intro e he hc
  obtain ⟨x, hx, hxn⟩ := List.mem_map.mp (name_mem_of_mem_combine_ts_tsx he)
  exact h x hx (hxn.trans hc)

theorem any_name_updateFirst (l : List SimpleLanguage)
    (p : SimpleLanguage → Bool) (f : SimpleLanguage → SimpleLanguage)
    (hf : ∀ e, (f e).name = e.name) (ty : LanguageType) :
    (updateFirst l p f).any (fun e => e.name = ty) =
      l.any (fun e => e.name = ty) := by
  induction l with
  | nil => rfl
  | cons x xs ih =>
    by_cases hx : p x
    · simp [updateFirst, hx, List.any_cons, hf]
    · simp [updateFirst, hx, List.any_cons, ih]

theorem adjust_eq_none (total : List SimpleLanguage)
    (h : counts? total LanguageType.Rust = none ∨
      counts? total LanguageType.TypeScript = none) :
    adjust total = none := by
  rcases h with h | h
  · have hany : total.any (fun e => e.name = LanguageType.Rust) = false :=
      List.any_eq_false.mpr (by
        intro e he
        have := (counts?_eq_none_iff total LanguageType.Rust).mp h e he
        simpa using this)
    unfold adjust
    rw [if_neg (by simp [hany])]
  · by_cases hr : total.any (fun e => e.name = LanguageType.Rust) = true
    · have hany : total.any (fun e => e.name = LanguageType.TypeScript)
          = false :=
        List.any_eq_false.mpr (by
          intro e he
          have := (counts?_eq_none_iff total
            LanguageType.TypeScript).mp h e he
          simpa using this)
      have hany' : (updateFirst total
          (fun e => e.name = LanguageType.Rust)
          (fun e => { e with code := e.code + 15673 })).any
            (fun e => e.name = LanguageType.TypeScript) = false := by
        rw [any_name_updateFirst total _
          (fun e => { e with code := e.code + 15673 }) (fun e => rfl)]
        exact hany
      unfold adjust
      rw [if_pos hr]
      simp only [hany', Bool.false_eq_true, if_false]
    · unfold adjust
      rw [if_neg hr]

/-- C9: if, after all merges, the global language set contains no Rust entry
or no TypeScript entry, the manual-adjustment step panics (modelled as
`none`), so post-processing produces no output and nothing is published:
the adjustment has the unstated precondition that both languages are present
in the global total. -/
theorem C9_adjust_requires_rust_and_ts (total : List SimpleLanguage)
    (prs : List PerRepo)
    (h : counts? total LanguageType.Rust = none ∨
      counts? total LanguageType.TypeScript = none) :
    postProcess total prs = none := by
  have hc : adjust (combine_ts_tsx total) = none := by
    apply adjust_eq_none
    rcases h with h | h
    · exact Or.inl (counts?_combine_ts_tsx_none total LanguageType.Rust h)
    · exact Or.inr
        (counts?_combine_ts_tsx_none total LanguageType.TypeScript h)
  unfold postProcess
  rw [hc]

/-- Witness for C9: the empty global set has no Rust entry, and
post-processing it indeed aborts. -/
theorem C9_adjust_requires_rust_and_ts_witness :
    postProcess [] [] = none :=
  C9_adjust_requires_rust_and_ts [] [] (Or.inl rfl)

theorem counts?_cons (x : SimpleLanguage) (xs : List SimpleLanguage)
    (ty : LanguageType) :
    counts? (x :: xs) ty =
      if x.name = ty then some (countsOf x) else counts? xs ty := by
  rw [counts?, entry?_cons]
  by_cases h : x.name = ty <;> simp [h, counts?]

theorem counts?_swapRemove_spec (u : List SimpleLanguage) (i : Nat)
    (tsx : SimpleLanguage) (hndu : nodupKeys u) (hui : u[i]? = some tsx) :
    counts? (swapRemove u i) tsx.name = none ∧
    ∀ ty, ty ≠ tsx.name →
      counts? (swapRemove u i) ty = counts? u ty := by
  have hilen : i < u.length := (List.getElem?_eq_some_iff.mp hui).1
  have hperm := swapRemove_perm u i hilen
  have hpermc := perm_cons_eraseIdx u i tsx hui
  have hnderase := nodupKeys_eraseIdx i hndu
  have hndsr := nodupKeys_perm hperm.symm hnderase
  have hc_sr : ∀ ty, counts? (swapRemove u i) ty =
      counts? (u.eraseIdx i) ty :=
    counts?_eq_of_perm hndsr hperm
  have hndc : nodupKeys (tsx :: u.eraseIdx i) := nodupKeys_perm hpermc hndu
  have hnotin : tsx.name ∉ (u.eraseIdx i).map (fun e => e.name) := by
    unfold nodupKeys at hndc
    exact (List.nodup_cons.mp hndc).1
  constructor
  · rw [hc_sr]
    apply (counts?_eq_none_iff _ _).mpr
    intro e he hc
    apply hnotin
    rw [← hc]
    exact List.mem_map.mpr ⟨e, he, rfl⟩
  · intro ty hty
    rw [hc_sr, counts?_eq_of_perm hndu hpermc ty, counts?_cons,
      if_neg (fun hc => hty hc.symm)]

/-- C1 counterexample: normalizing a set that contains a TSX entry but no
TypeScript entry returns the set unchanged — no TypeScript entry is created
and the TSX entry remains, contradicting the claimed behaviour of creating a
TypeScript entry carrying the TSX counts and removing the TSX entry. -/
theorem C1_counterexample :
    combine_ts_tsx [(⟨LanguageType.Tsx, 1, 2, 3⟩ : SimpleLanguage)]
      = [(⟨LanguageType.Tsx, 1, 2, 3⟩ : SimpleLanguage)] ∧
    (¬∃ e ∈ combine_ts_tsx [(⟨LanguageType.Tsx, 1, 2, 3⟩ : SimpleLanguage)],
      e.name = LanguageType.TypeScript) ∧
    (∃ e ∈ combine_ts_tsx [(⟨LanguageType.Tsx, 1, 2, 3⟩ : SimpleLanguage)],
      e.name = LanguageType.Tsx) := by
  decide

/-- C1 (amended): for a stat set with unique language keys that contains a
TSX entry, normalization merges the TSX counts into the TypeScript entry
only when a TypeScript entry already exists — the TSX entry is then removed
and every other language's counts are unchanged; when no TypeScript entry is
present the set is returned unchanged, so the TSX entry remains and no
TypeScript entry is created. -/
theorem C1_tsx_merge_amended (langs : List SimpleLanguage) (i : Nat)
    (tsx : SimpleLanguage) (hnd : nodupKeys langs)
    (htsx : findTsx 0 langs = some (i, tsx)) :
    ((∀ e ∈ langs, e.name ≠ LanguageType.TypeScript) →
      combine_ts_tsx langs = langs) ∧
    (langs.any (fun e => e.name = LanguageType.TypeScript) = true →
      counts? (combine_ts_tsx langs) LanguageType.Tsx = none ∧
      counts? (combine_ts_tsx langs) LanguageType.TypeScript =
        optCombine (counts? langs LanguageType.TypeScript)
          (some (countsOf tsx)) ∧
      (∀ ty, ty ≠ LanguageType.Tsx → ty ≠ LanguageType.TypeScript →
        counts? (combine_ts_tsx langs) ty = counts? langs ty)) := by
  obtain ⟨-, hget, hname⟩ := findTsx_some langs 0 i tsx htsx
  rw [Nat.sub_zero] at hget
  constructor
  · intro h
    have hts : ¬langs.any
        (fun e => e.name = LanguageType.TypeScript) = true := by
      rw [List.any_eq_true]
      rintro ⟨x, hx, hpx⟩
      exact h x hx (by simpa using hpx)
    exact combine_ts_tsx_of_neg langs i tsx htsx hts
  · intro hts
    have hcomb := combine_ts_tsx_of_pos langs i tsx htsx hts
    have hui : (updateFirst langs
        (fun e => e.name = LanguageType.TypeScript)
        (fun ts => ts.add_assign tsx))[i]? = some tsx :=
      getElem?_updateFirst_of_not _ _ langs i tsx hget (by simp [hname])
    have hndu : nodupKeys (updateFirst langs
        (fun e => e.name = LanguageType.TypeScript)
        (fun ts => ts.add_assign tsx)) := by
      unfold nodupKeys
      rw [map_name_updateFirst langs _ (fun ts => ts.add_assign tsx)
        (fun e => rfl)]
      exact hnd
    have hspec := counts?_swapRemove_spec _ i tsx hndu hui
    have hent := entry?_updateFirst LanguageType.TypeScript
      (fun ts => ts.add_assign tsx) (fun e => rfl) langs
    have hcu : ∀ ty, ty ≠ LanguageType.TypeScript →
        counts? (updateFirst langs
          (fun e => e.name = LanguageType.TypeScript)
          (fun ts => ts.add_assign tsx)) ty = counts? langs ty := by
      intro ty hty
      rw [counts?, hent ty, if_neg hty, counts?]
    obtain ⟨ts0, hts0⟩ : ∃ ts0,
        entry? langs LanguageType.TypeScript = some ts0 :=
      Option.isSome_iff_exists.mp
        (List.find?_isSome.mpr (List.any_eq_true.mp hts))
    have hcuTS : counts? (updateFirst langs
        (fun e => e.name = LanguageType.TypeScript)
        (fun ts => ts.add_assign tsx)) LanguageType.TypeScript =
        some (addC (countsOf ts0) (countsOf tsx)) := by
      rw [counts?, hent LanguageType.TypeScript, if_pos rfl, hts0]
      simp [countsOf_add_assign]
    refine ⟨?_, ?_, ?_⟩
    · rw [hcomb, ← hname]
      exact hspec.1
    · rw [hcomb, hspec.2 LanguageType.TypeScript
        (by rw [hname]; exact fun hc => by cases hc), hcuTS, counts?, hts0]
      rfl
    · intro ty htyTsx htyTS
      rw [hcomb, hspec.2 ty (by rw [hname]; exact htyTsx), hcu ty htyTS]

/-- Witness for the amended C1: on the one-entry TSX set, the hypotheses
hold and normalization returns the set unchanged. -/
theorem C1_tsx_merge_amended_witness :
    combine_ts_tsx [(⟨LanguageType.Tsx, 1, 2, 3⟩ : SimpleLanguage)]
      = [(⟨LanguageType.Tsx, 1, 2, 3⟩ : SimpleLanguage)] :=
  (C1_tsx_merge_amended [(⟨LanguageType.Tsx, 1, 2, 3⟩ : SimpleLanguage)]
    0 (⟨LanguageType.Tsx, 1, 2, 3⟩ : SimpleLanguage)
    (by unfold nodupKeys; decide) (by decide)).1 (by decide)

theorem postProcess_some {total : List SimpleLanguage} {prs : List PerRepo}
    {tF : List SimpleLanguage} {pF : List PerRepo}
    (h : postProcess total prs = some (tF, pF)) :
    ∃ t2, adjust (combine_ts_tsx total) = some t2 ∧
      tF = sortLangs t2 ∧
      pF = (List.insertionSort repoGe prs).map
        (fun r =>
          { r with languages := sortLangs (combine_ts_tsx r.languages) }) := by
  unfold postProcess at h
  cases hadj : adjust (combine_ts_tsx total) with
  | none => rw [hadj] at h; cases h
  | some t2 =>
    rw [hadj] at h
    refine ⟨t2, rfl, ?_, ?_⟩
    · exact (congrArg Prod.fst (Option.some.injEq _ _ ▸ h :
        (sortLangs t2,
          (List.insertionSort repoGe prs).map
            (fun r => { r with
              languages := sortLangs (combine_ts_tsx r.languages) })) =
          (tF, pF))).symm
    · exact (congrArg Prod.snd (Option.some.injEq _ _ ▸ h :
        (sortLangs t2,
          (List.insertionSort repoGe prs).map
            (fun r => { r with
              languages := sortLangs (combine_ts_tsx r.languages) })) =
          (tF, pF))).symm

/-- C6: in the final outputs, the global language list and every
repository's language list are sorted in descending order of code-line
count, the per-repo report list is sorted in descending order of each
report's total code-line count, and the global sort happens after the
manual adjustment: the sorted global list is a permutation of the adjusted
totals. -/
theorem C6_outputs_sorted (total0 : List SimpleLanguage)
    (prs0 : List PerRepo) (tF : List SimpleLanguage) (pF : List PerRepo)
    (h : postProcess total0 prs0 = some (tF, pF)) :
    tF.Sorted codeGe ∧
    (∀ q ∈ pF, q.languages.Sorted codeGe) ∧
    pF.Sorted repoGe ∧
    (∃ t2, adjust (combine_ts_tsx total0) = some t2 ∧ tF.Perm t2) := by
  obtain ⟨t2, hadj, htF, hpF⟩ := postProcess_some h
  refine ⟨?_, ?_, ?_, t2, hadj, ?_⟩
  · rw [htF]
    exact List.sorted_insertionSort codeGe t2
  · intro q hq
    rw [hpF] at hq
    obtain ⟨p, _, hpq⟩ := List.mem_map.mp hq
    rw [← hpq]
    exact List.sorted_insertionSort codeGe _
  · rw [hpF]
    have hsorted : (List.insertionSort repoGe prs0).Sorted repoGe :=
      List.sorted_insertionSort repoGe prs0
    have htc : ∀ r : PerRepo,
        total_code (sortLangs (combine_ts_tsx r.languages)) =
          total_code r.languages := by
      intro r
      unfold sortLangs
      rw [total_code_perm (List.perm_insertionSort codeGe _),
        total_code_combine_ts_tsx]
    exact List.Pairwise.map _
      (fun a b hab => by
        unfold repoGe at hab ⊢
        simpa [htc] using hab)
      hsorted
  · rw [htF]
    exact List.perm_insertionSort codeGe t2

/-- Witness for C6 at a concrete input: one private-free run with a Rust and
a TypeScript global entry and one repository report. -/
theorem C6_outputs_sorted_witness :
    ([(⟨LanguageType.Rust, 15675, 0, 0⟩ : SimpleLanguage),
        ⟨LanguageType.TypeScript, 4334, 0, 0⟩].Sorted codeGe) ∧
    (∀ q ∈ [(⟨"a", "h", none,
        [(⟨LanguageType.Python, 1, 0, 0⟩ : SimpleLanguage)]⟩ : PerRepo)],
      q.languages.Sorted codeGe) ∧
    ([(⟨"a", "h", none,
        [(⟨LanguageType.Python, 1, 0, 0⟩ : SimpleLanguage)]⟩ :
          PerRepo)].Sorted repoGe) ∧
    (∃ t2, adjust (combine_ts_tsx
        [(⟨LanguageType.TypeScript, 1, 0, 0⟩ : SimpleLanguage),
          ⟨LanguageType.Rust, 2, 0, 0⟩]) = some t2 ∧
      ([(⟨LanguageType.Rust, 15675, 0, 0⟩ : SimpleLanguage),
        ⟨LanguageType.TypeScript, 4334, 0, 0⟩] : List SimpleLanguage).Perm
        t2) :=
  C6_outputs_sorted
    [⟨LanguageType.TypeScript, 1, 0, 0⟩, ⟨LanguageType.Rust, 2, 0, 0⟩]
    [⟨"a", "h", none, [⟨LanguageType.Python, 1, 0, 0⟩]⟩]
    [⟨LanguageType.Rust, 15675, 0, 0⟩,
      ⟨LanguageType.TypeScript, 4334, 0, 0⟩]
    [⟨"a", "h", none, [⟨LanguageType.Python, 1, 0, 0⟩]⟩]
    (by decide)

theorem adjust_some_counts {t t2 : List SimpleLanguage}
    (h : adjust t = some t2) :
    t2.map (fun e => e.name) = t.map (fun e => e.name) ∧
    counts? t2 LanguageType.Rust =
      (counts? t LanguageType.Rust).map (fun c => (c.1 + 15673, c.2)) ∧
    counts? t2 LanguageType.TypeScript =
      (counts? t LanguageType.TypeScript).map
        (fun c => (c.1 + 4333, c.2)) ∧
    ∀ ty, ty ≠ LanguageType.Rust → ty ≠ LanguageType.TypeScript →
      counts? t2 ty = counts? t ty := by
  unfold adjust at h
  by_cases hr : t.any (fun e => e.name = LanguageType.Rust) = true
  · rw [if_pos hr] at h
    by_cases hts : (updateFirst t (fun e => e.name = LanguageType.Rust)
        (fun e => { e with code := e.code + 15673 })).any
          (fun e => e.name = LanguageType.TypeScript) = true
    · rw [if_pos hts, Option.some.injEq] at h
      subst h
      have hentR := entry?_updateFirst LanguageType.Rust
        (fun e => { e with code := e.code + 15673 }) (fun e => rfl) t
      have hentT := entry?_updateFirst LanguageType.TypeScript
        (fun e => { e with code := e.code + 4333 }) (fun e => rfl)
        (updateFirst t (fun e => e.name = LanguageType.Rust)
          (fun e => { e with code := e.code + 15673 }))
      refine ⟨?_, ?_, ?_, ?_⟩
      · rw [map_name_updateFirst _ _
          (fun e => { e with code := e.code + 4333 }) (fun e => rfl),
          map_name_updateFirst t _
          (fun e => { e with code := e.code + 15673 }) (fun e => rfl)]
      · rw [counts?, hentT LanguageType.Rust, if_neg (by decide),
          hentR LanguageType.Rust, if_pos rfl, counts?]
        cases entry? t LanguageType.Rust <;> rfl
      · rw [counts?, hentT LanguageType.TypeScript, if_pos rfl,
          hentR LanguageType.TypeScript, if_neg (by decide), counts?]
        cases entry? t LanguageType.TypeScript <;> rfl
      · intro ty htyR htyT
        rw [counts?, hentT ty, if_neg htyT, hentR ty, if_neg htyR, counts?]
    · rw [if_neg hts] at h
      cases h
  · rw [if_neg hr] at h
    cases h

/-- C5: the fixed manual adjustment (+15673 to the Rust code counter and
+4333 to the TypeScript code counter) is applied exactly once, to the global
report only, after all merges: the final global counts are precisely the
normalized merged totals with each constant added once and every other
language unchanged, while every per-repo report in the output carries a
permutation of its own normalized language list, with no constant added. -/
theorem C5_adjustment_global_only (total0 : List SimpleLanguage)
    (prs0 : List PerRepo) (tF : List SimpleLanguage) (pF : List PerRepo)
    (hnd : nodupKeys total0)
    (h : postProcess total0 prs0 = some (tF, pF)) :
    (counts? tF LanguageType.Rust =
      (counts? (combine_ts_tsx total0) LanguageType.Rust).map
        (fun c => (c.1 + 15673, c.2)) ∧
     counts? tF LanguageType.TypeScript =
      (counts? (combine_ts_tsx total0) LanguageType.TypeScript).map
        (fun c => (c.1 + 4333, c.2)) ∧
     (∀ ty, ty ≠ LanguageType.Rust → ty ≠ LanguageType.TypeScript →
       counts? tF ty = counts? (combine_ts_tsx total0) ty)) ∧
    (pF.length = prs0.length ∧
     ∀ q ∈ pF, ∃ p ∈ prs0, q.name = p.name ∧ q.href = p.href ∧
       q.description = p.description ∧
       q.languages.Perm (combine_ts_tsx p.languages)) := by
  obtain ⟨t2, hadj, htF, hpF⟩ := postProcess_some h
  have hndc := nodupKeys_combine_ts_tsx total0 hnd
  obtain ⟨hnames, hcR, hcT, hcO⟩ := adjust_some_counts hadj
  have hndt2 : nodupKeys t2 := by
    unfold nodupKeys
    rw [hnames]
    exact hndc
  have hcf : ∀ ty, counts? tF ty = counts? t2 ty := by
    intro ty
    rw [htF]
    exact (counts?_eq_of_perm hndt2
      (List.perm_insertionSort codeGe t2).symm ty).symm
  refine ⟨⟨?_, ?_, ?_⟩, ?_, ?_⟩
  · rw [hcf, hcR]
  · rw [hcf, hcT]
  · intro ty htyR htyT
    rw [hcf, hcO ty htyR htyT]
  · rw [hpF, List.length_map]
    exact (List.perm_insertionSort repoGe prs0).length_eq
  · intro q hq
    rw [hpF] at hq
    obtain ⟨p, hp, hpq⟩ := List.mem_map.mp hq
    refine ⟨p, (List.perm_insertionSort repoGe prs0).mem_iff.mp hp,
      ?_, ?_, ?_, ?_⟩ <;> rw [← hpq]
    exact List.perm_insertionSort codeGe _

/-- Witness for C5 at a concrete input: a global set with a Rust and a
TypeScript entry and one per-repo report. -/
theorem C5_adjustment_global_only_witness :
    (counts? [(⟨LanguageType.Rust, 15674, 0, 0⟩ : SimpleLanguage),
        ⟨LanguageType.TypeScript, 4335, 0, 0⟩] LanguageType.Rust =
      (counts? (combine_ts_tsx
          [(⟨LanguageType.Rust, 1, 0, 0⟩ : SimpleLanguage),
            ⟨LanguageType.TypeScript, 2, 0, 0⟩]) LanguageType.Rust).map
        (fun c => (c.1 + 15673, c.2)) ∧
     counts? [(⟨LanguageType.Rust, 15674, 0, 0⟩ : SimpleLanguage),
        ⟨LanguageType.TypeScript, 4335, 0, 0⟩] LanguageType.TypeScript =
      (counts? (combine_ts_tsx
          [(⟨LanguageType.Rust, 1, 0, 0⟩ : SimpleLanguage),
            ⟨LanguageType.TypeScript, 2, 0, 0⟩])
          LanguageType.TypeScript).map
        (fun c => (c.1 + 4333, c.2)) ∧
     (∀ ty, ty ≠ LanguageType.Rust → ty ≠ LanguageType.TypeScript →
       counts? [(⟨LanguageType.Rust, 15674, 0, 0⟩ : SimpleLanguage),
          ⟨LanguageType.TypeScript, 4335, 0, 0⟩] ty =
        counts? (combine_ts_tsx
          [(⟨LanguageType.Rust, 1, 0, 0⟩ : SimpleLanguage),
            ⟨LanguageType.TypeScript, 2, 0, 0⟩]) ty)) ∧
    (([(⟨"a", "h", none,
        [(⟨LanguageType.Rust, 7, 0, 0⟩ : SimpleLanguage)]⟩ :
          PerRepo)].length) =
      ([(⟨"a", "h", none,
        [(⟨LanguageType.Rust, 7, 0, 0⟩ : SimpleLanguage)]⟩ :
          PerRepo)].length) ∧
     ∀ q ∈ [(⟨"a", "h", none,
        [(⟨LanguageType.Rust, 7, 0, 0⟩ : SimpleLanguage)]⟩ : PerRepo)],
       ∃ p ∈ [(⟨"a", "h", none,
          [(⟨LanguageType.Rust, 7, 0, 0⟩ : SimpleLanguage)]⟩ : PerRepo)],
         q.name = p.name ∧ q.href = p.href ∧
         q.description = p.description ∧
         q.languages.Perm (combine_ts_tsx p.languages)) :=
  C5_adjustment_global_only
    [⟨LanguageType.Rust, 1, 0, 0⟩, ⟨LanguageType.TypeScript, 2, 0, 0⟩]
    [⟨"a", "h", none, [⟨LanguageType.Rust, 7, 0, 0⟩]⟩]
    [⟨LanguageType.Rust, 15674, 0, 0⟩,
      ⟨LanguageType.TypeScript, 4335, 0, 0⟩]
    [⟨"a", "h", none, [⟨LanguageType.Rust, 7, 0, 0⟩]⟩]
    (by unfold nodupKeys; decide) (by decide)

theorem optCombine_some_left_le (c : Nat × Nat × Nat)
    (b : Option (Nat × Nat × Nat)) :
    ∃ d, optCombine (some c) b = some d ∧
      c.1 ≤ d.1 ∧ c.2.1 ≤ d.2.1 ∧ c.2.2 ≤ d.2.2 := by
  cases b with
  | none => exact ⟨c, rfl, Nat.le_refl _, Nat.le_refl _, Nat.le_refl _⟩
  | some b =>
    exact ⟨addC c b, rfl, Nat.le_add_right _ _, Nat.le_add_right _ _,
      Nat.le_add_right _ _⟩

theorem optCombine_some_right_le (a : Option (Nat × Nat × Nat))
    (c : Nat × Nat × Nat) :
    ∃ d, optCombine a (some c) = some d ∧
      c.1 ≤ d.1 ∧ c.2.1 ≤ d.2.1 ∧ c.2.2 ≤ d.2.2 := by
  cases a with
  | none => exact ⟨c, rfl, Nat.le_refl _, Nat.le_refl _, Nat.le_refl _⟩
  | some a =>
    exact ⟨addC a c, rfl, Nat.le_add_left _ _, Nat.le_add_left _ _,
      Nat.le_add_left _ _⟩

theorem sumStats_mem_le {X : List SimpleLanguage} {e : SimpleLanguage}
    (he : e ∈ X) :
    ∃ c, sumStats X e.name = some c ∧
      e.code ≤ c.1 ∧ e.blanks ≤ c.2.1 ∧ e.comments ≤ c.2.2 := by
  induction X with
  | nil => cases he
  | cons y Y ih =>
    rcases List.mem_cons.mp he with rfl | he'
    · have hsingle : single e e.name = some (countsOf e) := by
        simp [single]
      rw [sumStats, hsingle]
      obtain ⟨d, hd, h1, h2, h3⟩ :=
        optCombine_some_left_le (countsOf e) (sumStats Y e.name)
      exact ⟨d, hd, h1, h2, h3⟩
    · obtain ⟨c, hc, h1, h2, h3⟩ := ih he'
      rw [sumStats, hc]
      obtain ⟨d, hd, g1, g2, g3⟩ :=
        optCombine_some_right_le (single y e.name) c
      exact ⟨d, hd, Nat.le_trans h1 g1, Nat.le_trans h2 g2,
        Nat.le_trans h3 g3⟩

theorem counts?_foldl_mono {L : List (List SimpleLanguage)} :
    ∀ (acc : List SimpleLanguage) (ty : LanguageType) (c : Nat × Nat × Nat),
      counts? acc ty = some c →
        ∃ d, counts? (L.foldl mergeInto acc) ty = some d ∧
          c.1 ≤ d.1 ∧ c.2.1 ≤ d.2.1 ∧ c.2.2 ≤ d.2.2 := by
  induction L with
  | nil =>
    intro acc ty c hc
    exact ⟨c, hc, Nat.le_refl _, Nat.le_refl _, Nat.le_refl _⟩
  | cons X L ih =>
    intro acc ty c hc
    have hstep := counts?_mergeInto X acc ty
    rw [hc] at hstep
    cases hs : sumStats X ty with
    | none =>
      rw [hs, optCombine_none_right] at hstep
      exact ih (mergeInto acc X) ty c hstep
    | some s =>
      rw [hs] at hstep
      obtain ⟨d, hd, h1, h2, h3⟩ := ih (mergeInto acc X) ty (addC c s)
        hstep
      exact ⟨d, hd, Nat.le_trans (Nat.le_add_right _ _) h1,
        Nat.le_trans (Nat.le_add_right _ _) h2,
        Nat.le_trans (Nat.le_add_right _ _) h3⟩

theorem counts?_foldl_of_mem {L : List (List SimpleLanguage)}
    {X : List SimpleLanguage} (hX : X ∈ L) :
    ∀ (acc : List SimpleLanguage) (ty : LanguageType) (c : Nat × Nat × Nat),
      sumStats X ty = some c →
        ∃ d, counts? (L.foldl mergeInto acc) ty = some d ∧
          c.1 ≤ d.1 ∧ c.2.1 ≤ d.2.1 ∧ c.2.2 ≤ d.2.2 := by
  induction L with
  | nil => cases hX
  | cons Y L ih =>
    intro acc ty c hc
    rcases List.mem_cons.mp hX with rfl | hX'
    · have hstep := counts?_mergeInto X acc ty
      rw [hc] at hstep
      obtain ⟨d, hd, h1, h2, h3⟩ :=
        optCombine_some_right_le (counts? acc ty) c
      rw [hd] at hstep
      obtain ⟨d', hd', g1, g2, g3⟩ := counts?_foldl_mono
        (mergeInto acc X) ty d hstep
      exact ⟨d', hd', Nat.le_trans h1 g1, Nat.le_trans h2 g2,
        Nat.le_trans h3 g3⟩
    · exact ih hX' (mergeInto acc Y) ty c hc

theorem names_processRepos (exclude : List String) (rs : List Repo) :
    ((processRepos exclude rs).2).map (fun q => q.name) =
      (rs.filter (fun r => eligible exclude r)).map (fun r => r.name) := by
  rw [processRepos_eq]
  rw [List.map_map]
  rfl

theorem mem_scheduledRepos_iff (repos : List Repo) (r : Repo) :
    r ∈ scheduledRepos repos ↔
      r ∈ repos ∧ r.fork.getD false = false := by
  unfold scheduledRepos keptRepos
  rw [(List.perm_insertionSort sizeGe _).mem_iff, List.mem_filter]
  simp

theorem nodup_names_scheduledRepos (repos : List Repo)
    (h : (repos.map (fun x => x.name)).Nodup) :
    ((scheduledRepos repos).map (fun x => x.name)).Nodup := by
  have hkept : ((keptRepos repos).map (fun x => x.name)).Nodup :=
    List.Nodup.sublist
      ((List.filter_sublist repos).map (fun x => x.name)) h
  exact (((List.perm_insertionSort sizeGe
    (keptRepos repos)).map (fun x => x.name)).nodup_iff).mpr hkept

theorem countP_name_eq_one {X : List Repo}
    (hnd : (X.map (fun x => x.name)).Nodup) {r : Repo} (hr : r ∈ X) :
    X.countP (fun x => x.name = r.name) = 1 := by
  induction X with
  | nil => cases hr
  | cons y Y ih =>
    have hnd' := List.nodup_cons.mp hnd
    rcases List.mem_cons.mp hr with rfl | hr'
    · have hzero : Y.countP (fun x => x.name = r.name) = 0 :=
        List.countP_eq_zero.mpr (fun x hx hc => hnd'.1 (by
          have hxe : x.name = r.name := by simpa using hc
          exact List.mem_map.mpr ⟨x, hx, hxe⟩))
      rw [List.countP_cons, hzero]
      simp
    · have hyn : ¬y.name = r.name := fun hc =>
        hnd'.1 (List.mem_map.mpr ⟨r, hr', hc.symm⟩)
      rw [List.countP_cons, ih hnd'.2 hr']
      simp [hyn]

/-- C2 counterexample: a repository with `fork = Some(true)` is discarded by
the pagination loop before cloning, so its per-language counts are *not*
merged into the global total: here the fork's stats contain a Rust entry but
the global accumulator ends empty, contradicting the claim that such a
repository's counts are present in the global total. -/
theorem C2_counterexample :
    ((⟨"forky", some 1, some true, none, none, "u",
        [(⟨LanguageType.Rust, 5, 0, 0⟩ : SimpleLanguage)]⟩ : Repo).fork.getD
          false = true) ∧
    ((⟨"forky", some 1, some true, none, none, "u",
        [(⟨LanguageType.Rust, 5, 0, 0⟩ : SimpleLanguage)]⟩ : Repo).stats ≠
          []) ∧
    counts?
      (processRepos []
        (scheduledRepos
          [(⟨"forky", some 1, some true, none, none, "u",
            [(⟨LanguageType.Rust, 5, 0, 0⟩ : SimpleLanguage)]⟩ : Repo)])).1
      LanguageType.Rust = none := by
  decide

/-- C2 (amended): under unique repository names, a repository whose fork
flag, private flag or exclusion-list membership holds never appears in the
per-repo report list; a *non-fork* private or excluded repository is still
cloned and counted, so each of its per-language counts is contained in the
corresponding global-total entry.  A fork, by contrast, is dropped by the
pagination loop before cloning and contributes to neither output. -/
theorem C2_eligibility_amended (exclude : List String) (repos : List Repo)
    (r : Repo) (hmem : r ∈ repos)
    (hnodup : (repos.map (fun x => x.name)).Nodup)
    (hflag : r.fork.getD false = true ∨ r.priv.getD false = true ∨
      exclude.contains r.name = true) :
    r.name ∉ ((processRepos exclude (scheduledRepos repos)).2.map
      (fun q => q.name)) ∧
    (r.fork.getD false = false →
      ∀ e ∈ r.stats, ∃ c,
        counts? (processRepos exclude (scheduledRepos repos)).1 e.name =
          some c ∧
        e.code ≤ c.1 ∧ e.blanks ≤ c.2.1 ∧ e.comments ≤ c.2.2) := by
  constructor
  · rw [names_processRepos]
    intro hin
    obtain ⟨r', hr', hname⟩ := List.mem_map.mp hin
    obtain ⟨hr'sched, helig⟩ := List.mem_filter.mp hr'
    obtain ⟨hr'mem, hr'fork⟩ := (mem_scheduledRepos_iff repos r').mp hr'sched
    have hrr : r' = r :=
      List.inj_on_of_nodup_map hnodup hr'mem hmem hname
    subst hrr
    rcases hflag with hf | hf | hf
    · rw [hr'fork] at hf
      simp at hf
    · simp [eligible, hf] at helig
    · simp [eligible] at helig
      exact helig.1 (by simpa using hf)
  · intro hfork e he
    have hsched : r ∈ scheduledRepos repos :=
      (mem_scheduledRepos_iff repos r).mpr ⟨hmem, hfork⟩
    have hX : r.stats ∈ (scheduledRepos repos).map (fun x => x.stats) :=
      List.mem_map.mpr ⟨r, hsched, rfl⟩
    obtain ⟨c, hc, h1, h2, h3⟩ := sumStats_mem_le he
    obtain ⟨d, hd, g1, g2, g3⟩ := counts?_foldl_of_mem hX [] e.name c hc
    rw [processRepos_eq]
    exact ⟨d, hd, Nat.le_trans h1 g1, Nat.le_trans h2 g2,
      Nat.le_trans h3 g3⟩

/-- Witness for the amended C2: an excluded, non-fork repository does not
appear in the per-repo list, yet its Rust counts are in the global total. -/
theorem C2_eligibility_amended_witness :
    ((⟨"x", some 1, none, none, none, "u",
        [(⟨LanguageType.Rust, 3, 4, 5⟩ : SimpleLanguage)]⟩ : Repo).name ∉
      ((processRepos ["x"]
        (scheduledRepos
          [(⟨"x", some 1, none, none, none, "u",
            [(⟨LanguageType.Rust, 3, 4, 5⟩ : SimpleLanguage)]⟩ :
              Repo)])).2.map (fun q => q.name))) ∧
    ((⟨"x", some 1, none, none, none, "u",
        [(⟨LanguageType.Rust, 3, 4, 5⟩ : SimpleLanguage)]⟩ : Repo).fork.getD
          false = false →
      ∀ e ∈ (⟨"x", some 1, none, none, none, "u",
          [(⟨LanguageType.Rust, 3, 4, 5⟩ : SimpleLanguage)]⟩ : Repo).stats,
        ∃ c,
          counts?
            (processRepos ["x"]
              (scheduledRepos
                [(⟨"x", some 1, none, none, none, "u",
                  [(⟨LanguageType.Rust, 3, 4, 5⟩ : SimpleLanguage)]⟩ :
                    Repo)])).1 e.name = some c ∧
          e.code ≤ c.1 ∧ e.blanks ≤ c.2.1 ∧ e.comments ≤ c.2.2) :=
  C2_eligibility_amended ["x"]
    [⟨"x", some 1, none, none, none, "u", [⟨LanguageType.Rust, 3, 4, 5⟩]⟩]
    ⟨"x", some 1, none, none, none, "u", [⟨LanguageType.Rust, 3, 4, 5⟩]⟩
    (by decide) (by decide) (Or.inr (Or.inr (by decide)))

/-- C8: under unique repository names, a processed repository that is
public (private flag not set to true), not a fork and not name-excluded
produces exactly one per-repo report entry, and that entry is
`mkPerRepo r`: the repository's own name, href, description and its own
language stats only. -/
theorem C8_eligible_unique_report (exclude : List String) (repos : List Repo)
    (r : Repo) (hmem : r ∈ repos)
    (hnodup : (repos.map (fun x => x.name)).Nodup)
    (hfork : r.fork.getD false = false)
    (hpriv : r.priv.getD false = false)
    (hexcl : exclude.contains r.name = false) :
    mkPerRepo r ∈ (processRepos exclude (scheduledRepos repos)).2 ∧
    (processRepos exclude (scheduledRepos repos)).2.countP
      (fun q => q.name = r.name) = 1 ∧
    ∀ q ∈ (processRepos exclude (scheduledRepos repos)).2,
      q.name = r.name → q = mkPerRepo r := by
  have hsched : r ∈ scheduledRepos repos :=
    (mem_scheduledRepos_iff repos r).mpr ⟨hmem, hfork⟩
  have helig : eligible exclude r = true := by
    simp [eligible, hpriv]
    simpa using hexcl
  have hndsched := nodup_names_scheduledRepos repos hnodup
  have hndfilter : (((scheduledRepos repos).filter
      (fun x => eligible exclude x)).map (fun x => x.name)).Nodup :=
    List.Nodup.sublist
      ((List.filter_sublist (scheduledRepos repos)).map
        (fun x : Repo => x.name)) hndsched
  refine ⟨?_, ?_, ?_⟩
  · rw [processRepos_eq]
    exact List.mem_map.mpr ⟨r, List.mem_filter.mpr ⟨hsched, helig⟩, rfl⟩
  · rw [processRepos_eq]
    show ((((scheduledRepos repos).filter
      (fun x => eligible exclude x)).map mkPerRepo).countP
        (fun q => q.name = r.name)) = 1
    rw [List.countP_map]
    exact countP_name_eq_one hndfilter
      (List.mem_filter.mpr ⟨hsched, helig⟩)
  · intro q hq hqname
    rw [processRepos_eq] at hq
    obtain ⟨r', hr', hr'q⟩ := List.mem_map.mp hq
    have hr'name : r'.name = r.name := by
      rw [← hr'q] at hqname
      exact hqname
    have hr'mem : r' ∈ repos :=
      ((mem_scheduledRepos_iff repos r').mp
        (List.mem_filter.mp hr').1).1
    have hrr : r' = r :=
      List.inj_on_of_nodup_map hnodup hr'mem hmem hr'name
    rw [← hr'q, hrr]

/-- Witness for C8: a single public non-fork repository yields exactly its
own report entry. -/
theorem C8_eligible_unique_report_witness :
    mkPerRepo
        (⟨"a", some 1, none, none, none, "u",
          [(⟨LanguageType.Rust, 1, 0, 0⟩ : SimpleLanguage)]⟩ : Repo) ∈
      (processRepos []
        (scheduledRepos
          [(⟨"a", some 1, none, none, none, "u",
            [(⟨LanguageType.Rust, 1, 0, 0⟩ : SimpleLanguage)]⟩ :
              Repo)])).2 ∧
    (processRepos []
      (scheduledRepos
        [(⟨"a", some 1, none, none, none, "u",
          [(⟨LanguageType.Rust, 1, 0, 0⟩ : SimpleLanguage)]⟩ :
            Repo)])).2.countP
      (fun q => q.name =
        (⟨"a", some 1, none, none, none, "u",
          [(⟨LanguageType.Rust, 1, 0, 0⟩ : SimpleLanguage)]⟩ :
            Repo).name) = 1 ∧
    ∀ q ∈ (processRepos []
        (scheduledRepos
          [(⟨"a", some 1, none, none, none, "u",
            [(⟨LanguageType.Rust, 1, 0, 0⟩ : SimpleLanguage)]⟩ :
              Repo)])).2,
      q.name = (⟨"a", some 1, none, none, none, "u",
          [(⟨LanguageType.Rust, 1, 0, 0⟩ : SimpleLanguage)]⟩ :
            Repo).name →
        q = mkPerRepo
          (⟨"a", some 1, none, none, none, "u",
            [(⟨LanguageType.Rust, 1, 0, 0⟩ : SimpleLanguage)]⟩ : Repo) :=
  C8_eligible_unique_report []
    [⟨"a", some 1, none, none, none, "u", [⟨LanguageType.Rust, 1, 0, 0⟩]⟩]
    ⟨"a", some 1, none, none, none, "u", [⟨LanguageType.Rust, 1, 0, 0⟩]⟩
    (by decide) (by decide) (by decide) (by decide) (by decide)

/-- C10: a repository descriptor with `fork = None` passes the fork filter
(it is scheduled, cloned and counted: each of its per-language counts is
contained in the corresponding global-total entry), and one with
`private = None` is treated as public: if its name is also not excluded, its
per-repo report entry is pushed.  Only flags explicitly set to `true`
trigger exclusion. -/
theorem C10_absent_flags_default (exclude : List String) (repos : List Repo)
    (r : Repo) (hmem : r ∈ repos) (hfork : r.fork = none) :
    r ∈ scheduledRepos repos ∧
    (∀ e ∈ r.stats, ∃ c,
      counts? (processRepos exclude (scheduledRepos repos)).1 e.name =
        some c ∧ e.code ≤ c.1 ∧ e.blanks ≤ c.2.1 ∧ e.comments ≤ c.2.2) ∧
    (r.priv = none → exclude.contains r.name = false →
      mkPerRepo r ∈ (processRepos exclude (scheduledRepos repos)).2) := by
  have hfork' : r.fork.getD false = false := by rw [hfork]; rfl
  have hsched : r ∈ scheduledRepos repos :=
    (mem_scheduledRepos_iff repos r).mpr ⟨hmem, hfork'⟩
  refine ⟨hsched, ?_, ?_⟩
  · intro e he
    have hX : r.stats ∈ (scheduledRepos repos).map (fun x => x.stats) :=
      List.mem_map.mpr ⟨r, hsched, rfl⟩
    obtain ⟨c, hc, h1, h2, h3⟩ := sumStats_mem_le he
    obtain ⟨d, hd, g1, g2, g3⟩ := counts?_foldl_of_mem hX [] e.name c hc
    rw [processRepos_eq]
    exact ⟨d, hd, Nat.le_trans h1 g1, Nat.le_trans h2 g2,
      Nat.le_trans h3 g3⟩
  · intro hpriv hexcl
    have helig : eligible exclude r = true := by
      simp [eligible, hpriv]
      simpa using hexcl
    rw [processRepos_eq]
    exact List.mem_map.mpr ⟨r, List.mem_filter.mpr ⟨hsched, helig⟩, rfl⟩

/-- Witness for C10: a repository with both flags absent is scheduled,
counted and reported. -/
theorem C10_absent_flags_default_witness :
    (⟨"n", some 2, none, none, none, "u",
        [(⟨LanguageType.Go, 4, 1, 2⟩ : SimpleLanguage)]⟩ : Repo) ∈
      scheduledRepos
        [(⟨"n", some 2, none, none, none, "u",
          [(⟨LanguageType.Go, 4, 1, 2⟩ : SimpleLanguage)]⟩ : Repo)] ∧
    (∀ e ∈ (⟨"n", some 2, none, none, none, "u",
        [(⟨LanguageType.Go, 4, 1, 2⟩ : SimpleLanguage)]⟩ : Repo).stats,
      ∃ c,
        counts?
          (processRepos []
            (scheduledRepos
              [(⟨"n", some 2, none, none, none, "u",
                [(⟨LanguageType.Go, 4, 1, 2⟩ : SimpleLanguage)]⟩ :
                  Repo)])).1 e.name = some c ∧
        e.code ≤ c.1 ∧ e.blanks ≤ c.2.1 ∧ e.comments ≤ c.2.2) ∧
    ((⟨"n", some 2, none, none, none, "u",
        [(⟨LanguageType.Go, 4, 1, 2⟩ : SimpleLanguage)]⟩ : Repo).priv =
          none →
      List.contains []
        (⟨"n", some 2, none, none, none, "u",
          [(⟨LanguageType.Go, 4, 1, 2⟩ : SimpleLanguage)]⟩ : Repo).name =
            false →
      mkPerRepo
          (⟨"n", some 2, none, none, none, "u",
            [(⟨LanguageType.Go, 4, 1, 2⟩ : SimpleLanguage)]⟩ : Repo) ∈
        (processRepos []
          (scheduledRepos
            [(⟨"n", some 2, none, none, none, "u",
              [(⟨LanguageType.Go, 4, 1, 2⟩ : SimpleLanguage)]⟩ :
                Repo)])).2) :=
  C10_absent_flags_default []
    [⟨"n", some 2, none, none, none, "u", [⟨LanguageType.Go, 4, 1, 2⟩]⟩]
    ⟨"n", some 2, none, none, none, "u", [⟨LanguageType.Go, 4, 1, 2⟩]⟩
    (by decide) (by decide)

/-- Phases of one worker iteration (main.rs lines 160-240) that run while
the per-repository scratch directory exists, in source order:
`fetchPhase` is `prepare_clone(..) .. fetch_then_checkout(..).unwrap()`
(lines 177-183), `checkoutPhase` is `main_worktree(..).unwrap()`
(lines 185-187), `mergePhase` is the accumulator loop with its
`total.lock().unwrap()` (lines 210-217), `collectPhase` is the per-repo
push with `per_repo_stats.lock().unwrap()` and `repo.html_url.unwrap()`
(lines 219-232), and `removePhase` is
`fs::remove_dir_all(&repo_path).unwrap()` (line 234).  The URL-handling
unwraps before `prepare_clone` run before the directory exists, and the
tokei analysis (lines 196-208) makes no fallible call, so neither appears
as a phase. -/
inductive WorkerPhase where
  | fetchPhase
  | checkoutPhase
  | mergePhase
  | collectPhase
  | removePhase
deriving DecidableEq

/-- The worker's fallible phases in the order they appear in the closure
body. -/
def workerPhases : List WorkerPhase :=
  [WorkerPhase.fetchPhase, WorkerPhase.checkoutPhase,
    WorkerPhase.mergePhase, WorkerPhase.collectPhase,
    WorkerPhase.removePhase]

/-- Whether a gix delete-on-drop guard still owns the scratch directory
while the phase runs: `PrepareFetch` during the fetch and `PrepareCheckout`
during the checkout.  When one of these phases fails, the panic unwinds
through the guard's `Drop`, which deletes the freshly created directory.
After a successful checkout the guard is disarmed, so the later phases run
with no guard. -/
def phaseGuarded : WorkerPhase → Bool
  | WorkerPhase.fetchPhase => true
  | WorkerPhase.checkoutPhase => true
  | _ => false

/-- Exit state of one worker iteration: whether the closure ran to
completion, and whether the scratch directory is gone at exit. -/
structure WorkerExit where
  completed : Bool
  scratchRemoved : Bool
deriving DecidableEq

/-- Control-flow model of the worker body: phases run in order and the
first failing phase panics, so nothing after it runs.  A failure in a
guarded phase removes the directory during unwinding (the gix
delete-on-drop guard); a failure in an unguarded phase leaves it in place;
the final phase, when reached and successful, is the explicit removal at
line 234. -/
def runWorker (ok : WorkerPhase → Bool) : List WorkerPhase → WorkerExit
  | [] => { completed := true, scratchRemoved := false }
  | p :: rest =>
    if ok p then
      if p = WorkerPhase.removePhase then
        { runWorker ok rest with scratchRemoved := true }
      else
        runWorker ok rest
    else
      { completed := false, scratchRemoved := phaseGuarded p }

/-- C7 counterexample: on the exit path where the clone and checkout have
succeeded (so the gix delete-on-drop guard is already disarmed) and the
per-repo collection then panics — as the `repo.html_url.unwrap()` at line
227 or a poisoned `per_repo_stats` lock does — the worker unwinds before
the removal at line 234 and the scratch directory is *not* removed,
contradicting the claim that it is removed on every exit path. -/
theorem C7_counterexample :
    (runWorker
      (fun p => match p with
        | WorkerPhase.collectPhase => false
        | _ => true) workerPhases).scratchRemoved = false ∧
    (runWorker
      (fun p => match p with
        | WorkerPhase.collectPhase => false
        | _ => true) workerPhases).completed = false := by
  decide

/-- C7 (amended): the scratch directory is removed on the success path
(the explicit removal at line 234) and on clone/checkout failures, where
gix's `PrepareFetch`/`PrepareCheckout` delete the fresh directory on drop
during panic unwinding; but a panic after the checkout has succeeded and
before the removal completes — a poisoned accumulator lock in the merge, a
panic in the per-repo collection such as the `html_url` unwrap, or a
failure of the removal call itself — leaves the directory in place for
that run (the scratch root is wiped only at the next run's startup,
main.rs line 111).  The theorem characterizes exactly which exit paths end
with the directory removed. -/
theorem C7_cleanup_amended (ok : WorkerPhase → Bool) :
    (runWorker ok workerPhases).scratchRemoved = true ↔
      (ok WorkerPhase.fetchPhase = false ∨
       (ok WorkerPhase.fetchPhase = true ∧
        ok WorkerPhase.checkoutPhase = false) ∨
       (ok WorkerPhase.fetchPhase = true ∧
        ok WorkerPhase.checkoutPhase = true ∧
        ok WorkerPhase.mergePhase = true ∧
        ok WorkerPhase.collectPhase = true ∧
        ok WorkerPhase.removePhase = true)) := by
  cases h1 : ok WorkerPhase.fetchPhase <;>
    cases h2 : ok WorkerPhase.checkoutPhase <;>
      cases h3 : ok WorkerPhase.mergePhase <;>
        cases h4 : ok WorkerPhase.collectPhase <;>
          cases h5 : ok WorkerPhase.removePhase <;>
            simp [runWorker, workerPhases, phaseGuarded, h1, h2, h3, h4, h5]

end GithubMe
